import Mathlib

/-!
# Verification of echo-playground's content negotiation and cursor pagination

Shallow embedding of the repository's two algorithmic cores:

* `internal/platform/respond/respond.go` — `parseAccept`, `selectFormat`,
  `ensureVary` (RFC 9110 content negotiation, Vary bookkeeping);
* `internal/platform/pagination` — cursor codec, `Paginate`, `BuildLinkHeader`.
  The Go sources of this package are not present in the repository snapshot
  (only its tests and callers are); those definitions are modelled from the
  spec and validated against the package's tests.

Go strings are byte sequences; the pagination layer is embedded over
`List (Fin 256)`.  The negotiation layer works on header text and is embedded
over `List Char`; `q` values are embedded as exact rationals (ℚ) rather than
IEEE doubles — comparisons of the short decimal q-values exercised here agree.
-/

namespace EchoPlayground

/-! ## Generic string/list helpers mirroring Go's `strings` package -/

/-- Text is modelled as a list of characters. -/
abbrev Str := List Char

/-- `chars s` converts a Lean string literal into the embedding's text type. -/
def chars (s : String) : Str := s.toList

/-- ASCII whitespace recognised by `strings.TrimSpace` (model of
`unicode.IsSpace` restricted to ASCII: space, \t, \n, \v, \f, \r). -/
def isSpaceChar (c : Char) : Bool :=
  c = ' ' || c = '\t' || c = '\n' || c = '\r' || c = Char.ofNat 11 || c = Char.ofNat 12

/-- Model of Go `strings.TrimSpace`. -/
def trimSpace (s : Str) : Str :=
  ((s.dropWhile isSpaceChar).reverse.dropWhile isSpaceChar).reverse

/-- Model of Go `strings.Split` on a one-character separator (as produced by
`strings.SplitSeq(s, ",")` / `strings.SplitSeq(s, ";")`): all parts, empty
parts preserved. -/
def splitOnSep {α : Type} [DecidableEq α] (sep : α) : List α → List (List α)
  | [] => [[]]
  | c :: rest =>
    if c = sep then [] :: splitOnSep sep rest
    else
      match splitOnSep sep rest with
      | [] => [[c]]
      | h :: t => (c :: h) :: t

/-- Model of Go `strings.Cut` on a one-character separator: split at the first
occurrence; `none` when the separator does not occur. -/
def cutOn {α : Type} [DecidableEq α] (sep : α) : List α → Option (List α × List α)
  | [] => none
  | c :: rest =>
    if c = sep then some ([], rest)
    else (cutOn sep rest).map (fun p => (c :: p.1, p.2))

/-- Model of Go `strings.ToLower` (ASCII letters). -/
def lowerStr (s : Str) : Str :=
  s.map (fun c => if 'A' ≤ c ∧ c ≤ 'Z' then Char.ofNat (c.toNat + 32) else c)

/-- Model of Go `strings.HasPrefix`. -/
def startsWith (pre s : Str) : Bool := pre.isPrefixOf s

/-- Model of Go `strings.HasSuffix`. -/
def endsWith (suf s : Str) : Bool := suf.reverse.isPrefixOf s.reverse

/-! ## Model of `strconv.ParseFloat` on q-values

`parseFloat?` models `strconv.ParseFloat(s, 64)` over exact rationals on the
decimal forms `[+-]digits[.digits][(e|E)[+-]digits]` (either digit group of the
mantissa may be empty but not both).  Not modelled: hexadecimal floats,
`inf`/`nan` (these never pass the `0 ≤ q ≤ 1` range check that guards every
use), and digit-group underscores. -/

/-- ASCII decimal digit test. -/
def isDigitChar (c : Char) : Bool := '0' ≤ c && c ≤ '9'

/-- Numeric value of a digit string (most significant first). -/
def digitsVal (l : Str) : ℕ := l.foldl (fun a c => a * 10 + (c.toNat - 48)) 0

/-- Parse the exponent suffix: empty means `10^0`; otherwise `e`/`E`, an
optional sign, and a non-empty run of digits consuming the rest. -/
def parseExp : Str → Option ℤ
  | [] => some 0
  | c :: rest =>
    if c = 'e' ∨ c = 'E' then
      let (es, r) : ℤ × Str :=
        match rest with
        | '+' :: t => (1, t)
        | '-' :: t => (-1, t)
        | _ => (1, rest)
      if r ≠ [] ∧ r.all isDigitChar then some (es * (digitsVal r : ℤ)) else none
    else none

/-- Model of `strconv.ParseFloat` (decimal forms) over ℚ. -/
def parseFloat? (s : Str) : Option ℚ :=
  let (sgn, s1) : ℚ × Str :=
    match s with
    | '-' :: r => (-1, r)
    | '+' :: r => (1, r)
    | _ => (1, s)
  let ip := s1.takeWhile isDigitChar
  let r1 := s1.drop ip.length
  let (fp, r2) : Str × Str :=
    match r1 with
    | '.' :: t => (t.takeWhile isDigitChar, t.drop (t.takeWhile isDigitChar).length)
    | _ => ([], r1)
  if ip = [] ∧ fp = [] then none
  else
    match parseExp r2 with
    | none => none
    | some e =>
      some (sgn * ((digitsVal ip : ℚ) + (digitsVal fp : ℚ) / 10 ^ fp.length) * (10 : ℚ) ^ e)

/-! ## `respond.go`: parseAccept -/

/-- `mediaRange` from `respond.go`: parsed Accept entry. -/
structure MediaRange where
  typ : Str
  subtype : Str
  q : ℚ
deriving DecidableEq, Repr

/-- One step of the `q=` parameter scan inside a segment's parameter list
(`respond.go` lines 43–50): a parameter sets `q` only when it has the
case-insensitive `q=` form, parses, and lies in `[0, 1]`. -/
def qParamStep (q : ℚ) (param : Str) : ℚ :=
  if startsWith (chars "q=") (lowerStr (trimSpace param)) then
    match parseFloat? ((trimSpace param).drop 2) with
    | some v => if 0 ≤ v ∧ v ≤ 1 then v else q
    | none => q
  else q

/-- The q value of a segment: the scan of `q=` parameters after the first `;`,
starting from the default `1.0` (`respond.go` lines 39–51). -/
def segmentQ (part : Str) : ℚ :=
  match cutOn ';' part with
  | some pr => (splitOnSep ';' pr.2).foldl qParamStep 1
  | none => 1

/-- The media-type token of a segment: the trimmed text before the first `;`,
or the whole segment when there is none (`respond.go` lines 40–42). -/
def segmentMediaType (part : Str) : Str :=
  match cutOn ';' part with
  | some pr => trimSpace pr.1
  | none => part

/-- Parse one non-empty, trimmed Accept segment into a `MediaRange`
(`respond.go` lines 39–59). -/
def parseSegment (part : Str) : MediaRange :=
  match cutOn '/' (segmentMediaType part) with
  | some pr =>
    { typ := lowerStr (trimSpace pr.1), subtype := lowerStr (trimSpace pr.2),
      q := segmentQ part }
  | none =>
    { typ := lowerStr (trimSpace (segmentMediaType part)), subtype := ['*'],
      q := segmentQ part }

/-- `parseAccept` from `respond.go` (lines 27–63). -/
def parseAccept (header : Str) : List MediaRange :=
  if header = [] then []
  else
    (splitOnSep ',' header).filterMap (fun part =>
      if trimSpace part = [] then none else some (parseSegment (trimSpace part)))

/-! ## `respond.go`: selectFormat -/

/-- The `switch` of `selectFormat` (`respond.go` lines 85–112):
`(matchesCBOR, matchesJSON, specificity)` of a media range. -/
def matchInfo (mr : MediaRange) : Bool × Bool × ℕ :=
  if mr.typ = chars "application" ∧ mr.subtype = chars "problem+cbor" then (true, false, 4)
  else if mr.typ = chars "application" ∧ mr.subtype = chars "problem+json" then (false, true, 4)
  else if mr.typ = chars "application" ∧ mr.subtype = chars "cbor" then (true, false, 3)
  else if mr.typ = chars "application" ∧ mr.subtype = chars "json" then (false, true, 3)
  else if mr.typ = chars "application" ∧ endsWith (chars "+cbor") mr.subtype then (true, false, 3)
  else if mr.typ = chars "application" ∧ endsWith (chars "+json") mr.subtype then (false, true, 3)
  else if mr.typ = chars "application" ∧ mr.subtype = ['*'] then (true, true, 2)
  else if mr.typ = ['*'] ∧ mr.subtype = ['*'] then (true, true, 1)
  else (false, false, 0)

/-- Running state of `selectFormat`'s loop: the best (q, specificity) seen per
family, initialised to `q = -1`, `specificity = 0`. -/
structure FamState where
  cborQ : ℚ
  jsonQ : ℚ
  cborS : ℕ
  jsonS : ℕ
deriving DecidableEq, Repr

/-- One iteration of `selectFormat`'s loop (`respond.go` lines 77–122). -/
def stepFam (st : FamState) (mr : MediaRange) : FamState :=
  if mr.q = 0 then st
  else
    let mi := matchInfo mr
    let s := mi.2.2
    let st1 :=
      if mi.1 ∧ (s > st.cborS ∨ (s = st.cborS ∧ mr.q > st.cborQ)) then
        { st with cborQ := mr.q, cborS := s }
      else st
    if mi.2.1 ∧ (s > st1.jsonS ∨ (s = st1.jsonS ∧ mr.q > st1.jsonQ)) then
      { st1 with jsonQ := mr.q, jsonS := s }
    else st1

/-- Resolution over an explicit list of ranges (`respond.go` lines 68–138). -/
def selectFormatRanges (ranges : List MediaRange) : Bool :=
  if ranges = [] then false
  else
    let st := ranges.foldl stepFam ⟨-1, -1, 0, 0⟩
    if st.cborQ ≤ 0 ∧ st.jsonQ ≤ 0 then false
    else if st.cborQ > st.jsonQ then true
    else if st.jsonQ > st.cborQ then false
    else decide (st.cborS > st.jsonS)

/-- `selectFormat` from `respond.go`: `true` = CBOR, `false` = JSON. -/
def selectFormat (header : Str) : Bool :=
  selectFormatRanges (parseAccept header)

/-! ## Spec-side view of the selection: surviving candidates and family winners -/

/-- The CBOR-family candidate contributed by a range: its `(specificity, q)`
pair when the range survives (`q ≠ 0`) and matches the CBOR family. -/
def cborCand (mr : MediaRange) : Option (ℕ × ℚ) :=
  if mr.q ≠ 0 ∧ (matchInfo mr).1 then some ((matchInfo mr).2.2, mr.q) else none

/-- The JSON-family candidate contributed by a range. -/
def jsonCand (mr : MediaRange) : Option (ℕ × ℚ) :=
  if mr.q ≠ 0 ∧ (matchInfo mr).2.1 then some ((matchInfo mr).2.2, mr.q) else none

/-- All surviving CBOR-family candidates of a range list. -/
def cborCands (ranges : List MediaRange) : List (ℕ × ℚ) := ranges.filterMap cborCand

/-- All surviving JSON-family candidates of a range list. -/
def jsonCands (ranges : List MediaRange) : List (ℕ × ℚ) := ranges.filterMap jsonCand

/-- Lexicographic order on `(specificity, q)`: higher specificity first,
then higher q — the family-internal "best candidate" order of the spec. -/
def lexLE (p w : ℕ × ℚ) : Prop := p.1 < w.1 ∨ (p.1 = w.1 ∧ p.2 ≤ w.2)

instance : DecidablePred (fun pw : (ℕ × ℚ) × ℕ × ℚ => lexLE pw.1 pw.2) := by
  intro pw; unfold lexLE; infer_instance

instance (p w : ℕ × ℚ) : Decidable (lexLE p w) := by unfold lexLE; infer_instance

/-- `w` is a family's winning candidate: a member dominating all members. -/
def isBestCand (w : ℕ × ℚ) (l : List (ℕ × ℚ)) : Prop :=
  w ∈ l ∧ ∀ p ∈ l, lexLE p w

instance (w : ℕ × ℚ) (l : List (ℕ × ℚ)) : Decidable (isBestCand w l) := by
  unfold isBestCand; infer_instance

/-- Binary lexicographic max, mirroring the loop's strict update condition. -/
def pairMax (a c : ℕ × ℚ) : ℕ × ℚ :=
  if c.1 > a.1 ∨ (c.1 = a.1 ∧ c.2 > a.2) then c else a

/-- Initial loop state of `selectFormat`: `q = -1`, `specificity = 0`. -/
def initFam : FamState := ⟨-1, -1, 0, 0⟩

/-- The loop state after `selectFormat` processed all parsed ranges. -/
def negState (header : Str) : FamState := (parseAccept header).foldl stepFam initFam

/-- The q value a parameter contributes, if any: the parameter must have the
case-insensitive `q=` form, parse, and lie in `[0, 1]`. -/
def validQ (param : Str) : Option ℚ :=
  if startsWith (chars "q=") (lowerStr (trimSpace param)) then
    match parseFloat? ((trimSpace param).drop 2) with
    | some v => if 0 ≤ v ∧ v ≤ 1 then some v else none
    | none => none
  else none

/-! ## C9: Vary bookkeeping (`ensureVary`, `writeProblem`, the Vary middleware) -/

/-- All Vary tokens advertised by a list of Vary header values: each value is
split on `,` and its pieces trimmed (`respond.go` lines 142–147). -/
def varyTokens (vs : List Str) : List Str :=
  (vs.map (fun v => (splitOnSep ',' v).map trimSpace)).flatten

/-- `ensureVary` from `respond.go` (lines 141–154): append each requested
value, as a header value of its own, unless its token is already present;
values added earlier in the same call also count as present. -/
def ensureVary (vs values : List Str) : List Str :=
  vs ++ (values.foldl
    (fun (st : List Str × List Str) v =>
      if v ∈ st.1 then st else (v :: st.1, st.2 ++ [v]))
    (varyTokens vs, [])).2

/-- The `Vary()` middleware (`internal/platform/middleware`, vary.go): always
appends an `Accept` value to the response's Vary header. -/
def varyMiddleware (vs : List Str) : List Str := vs ++ [chars "Accept"]

/-- Modelled from the spec: the CORS layer (vendored middleware, not in the
repository snapshot) adds an `Origin` Vary value, since CORS output varies by
request origin. -/
def corsVary (vs : List Str) : List Str := vs ++ [chars "Origin"]

/-- Vary values of a negotiated success response under the middleware chain
wired in `cmd/server/main.go` (Security touches no Vary; then Vary(), then
CORS; `Negotiate` adds none). -/
def successVary : List Str := corsVary (varyMiddleware [])

/-- Model of `writeProblem`'s Vary bookkeeping (`respond.go` line 160):
`ensureVary(w.Header(), "Origin", "Accept")`. -/
def problemVary (vs : List Str) : List Str :=
  ensureVary vs [chars "Origin", chars "Accept"]

/-! ## Pagination layer: bytes and the base64url (no padding) codec

Go strings are arbitrary byte sequences, so cursors, ids, URLs and tokens are
embedded as `List (Fin 256)`.  The `pagination` package's Go sources are
missing from the repository snapshot; everything below `Cursor` is modelled
from the spec (§4.2–4.3) and validated against the package's tests
(`cursor_test.go`, `params_test.go` test bodies present under `src/`). -/

/-- A byte. -/
abbrev Byte := Fin 256

/-- A Go string, as its byte sequence. -/
abbrev Bytes := List Byte

/-- Bytes of an ASCII Lean string literal (codepoints are taken mod 256;
all literals used here are ASCII). -/
def byteStr (s : String) : Bytes :=
  s.toList.map (fun c => ⟨c.toNat % 256, Nat.mod_lt _ (by norm_num)⟩)

/-- The base64url alphabet character for a 6-bit value
(`A–Z`, `a–z`, `0–9`, `-`, `_`). -/
def b64chr (n : Fin 64) : Byte :=
  if h : n.val < 26 then ⟨65 + n.val, by omega⟩
  else if h2 : n.val < 52 then ⟨97 + (n.val - 26), by omega⟩
  else if h3 : n.val < 62 then ⟨48 + (n.val - 52), by omega⟩
  else if n.val = 62 then ⟨45, by norm_num⟩
  else ⟨95, by norm_num⟩

/-- The 6-bit value of a base64url alphabet byte, `none` outside the alphabet. -/
def b64val (b : Byte) : Option (Fin 64) :=
  if h : 65 ≤ b.val ∧ b.val ≤ 90 then some ⟨b.val - 65, by omega⟩
  else if h2 : 97 ≤ b.val ∧ b.val ≤ 122 then some ⟨26 + (b.val - 97), by omega⟩
  else if h3 : 48 ≤ b.val ∧ b.val ≤ 57 then some ⟨52 + (b.val - 48), by omega⟩
  else if b.val = 45 then some ⟨62, by norm_num⟩
  else if b.val = 95 then some ⟨63, by norm_num⟩
  else none

/-- Modelled from the spec: raw (unpadded) base64url encoding, as
`base64.RawURLEncoding.EncodeToString` produces: 3-byte groups become 4
alphabet bytes; a 1- or 2-byte remainder becomes 2 or 3 alphabet bytes. -/
def b64enc : Bytes → Bytes
  | [] => []
  | [a] =>
    [b64chr ⟨a.val / 4, by have := a.isLt; omega⟩,
     b64chr ⟨a.val % 4 * 16, by have := Nat.mod_lt a.val (y := 4) (by norm_num); omega⟩]
  | [a, b] =>
    [b64chr ⟨a.val / 4, by have := a.isLt; omega⟩,
     b64chr ⟨a.val % 4 * 16 + b.val / 16, by have := a.isLt; have := b.isLt; omega⟩,
     b64chr ⟨b.val % 16 * 4, by have := b.isLt; omega⟩]
  | a :: b :: c :: rest =>
    b64chr ⟨a.val / 4, by have := a.isLt; omega⟩ ::
    b64chr ⟨a.val % 4 * 16 + b.val / 16, by have := a.isLt; have := b.isLt; omega⟩ ::
    b64chr ⟨b.val % 16 * 4 + c.val / 64, by have := b.isLt; have := c.isLt; omega⟩ ::
    b64chr ⟨c.val % 64, by have := Nat.mod_lt c.val (y := 64) (by norm_num); omega⟩ ::
    b64enc rest

/-- Modelled from the spec: raw base64url decoding — `none` on any byte
outside the alphabet or on an impossible length (`4k+1`). -/
def b64dec : Bytes → Option Bytes
  | [] => some []
  | [_] => none
  | [w, x] =>
    match b64val w, b64val x with
    | some w', some x' =>
      some [⟨w'.val * 4 + x'.val / 16, by have := w'.isLt; have := x'.isLt; omega⟩]
    | _, _ => none
  | [w, x, y] =>
    match b64val w, b64val x, b64val y with
    | some w', some x', some y' =>
      some [⟨w'.val * 4 + x'.val / 16, by have := w'.isLt; have := x'.isLt; omega⟩,
        ⟨x'.val % 16 * 16 + y'.val / 4, by have := x'.isLt; have := y'.isLt; omega⟩]
    | _, _, _ => none
  | w :: x :: y :: z :: rest =>
    match b64val w, b64val x, b64val y, b64val z, b64dec rest with
    | some w', some x', some y', some z', some r =>
      some (⟨w'.val * 4 + x'.val / 16, by have := w'.isLt; have := x'.isLt; omega⟩ ::
        ⟨x'.val % 16 * 16 + y'.val / 4, by have := x'.isLt; have := y'.isLt; omega⟩ ::
        ⟨y'.val % 4 * 64 + z'.val, by have := y'.isLt; have := z'.isLt; omega⟩ :: r)
    | _, _, _, _, _ => none

/-! ## The cursor codec -/

/-- `Cursor` from the pagination package; `Ty` embeds the Go field `Type`
(a Lean keyword), `Value` the field `Value`. Both are Go strings (bytes). -/
structure Cursor where
  Ty : Bytes
  Value : Bytes
deriving DecidableEq, Repr

/-- The cursor delimiter: a colon. -/
def colonByte : Byte := ⟨58, by norm_num⟩

/-- Modelled from the spec (§4.2): `Cursor.Encode` joins `Type` and `Value`
with a single colon and base64url-encodes the byte sequence
(the Go source of the codec is not in the repository snapshot). -/
def Cursor.Encode (c : Cursor) : Bytes := b64enc (c.Ty ++ colonByte :: c.Value)

/-- The codec's only error kind (`ErrInvalidCursor`). -/
inductive CursorError where
  | invalidCursor
deriving DecidableEq, Repr

/-- Modelled from the spec (§4.2): `DecodeCursor` — the empty token is the
zero cursor with no error; a token that fails base64url decoding, or whose
decoded bytes contain no colon, is `ErrInvalidCursor`; otherwise split at the
first colon: `Type` before it, `Value` everything after. -/
def DecodeCursor (token : Bytes) : Except CursorError Cursor :=
  if token = [] then .ok ⟨[], []⟩
  else
    match b64dec token with
    | none => .error .invalidCursor
    | some bs =>
      match cutOn colonByte bs with
      | none => .error .invalidCursor
      | some pr => .ok ⟨pr.1, pr.2⟩

instance {ε α : Type} [DecidableEq ε] [DecidableEq α] : DecidableEq (Except ε α) :=
  fun a b =>
    match a, b with
    | .error e1, .error e2 =>
      if h : e1 = e2 then isTrue (by rw [h])
      else isFalse (by intro hc; injection hc; exact h ‹_›)
    | .error _, .ok _ => isFalse (by intro hc; exact Except.noConfusion hc)
    | .ok _, .error _ => isFalse (by intro hc; exact Except.noConfusion hc)
    | .ok a1, .ok a2 =>
      if h : a1 = a2 then isTrue (by rw [h])
      else isFalse (by intro hc; injection hc; exact h ‹_›)

/-! ## The link builder (`BuildLinkHeader`), modelled from the spec (§4.3) -/

/-- `url.Values`: keys mapped to ordered value lists.  Go's map is unordered
and `Encode` sorts keys, so an association list (unique keys) models it. -/
abbrev Values := List (Bytes × List Bytes)

/-- Lexicographic byte-string order (Go string comparison). -/
def bytesLE : Bytes → Bytes → Bool
  | [], _ => true
  | _ :: _, [] => false
  | a :: ta, b :: tb =>
    if a.val < b.val then true
    else if b.val < a.val then false
    else bytesLE ta tb

/-- Stable insertion by key order. -/
def insertByKey (x : Bytes × List Bytes) : Values → Values
  | [] => [x]
  | y :: ys => if bytesLE x.1 y.1 then x :: y :: ys else y :: insertByKey x ys

/-- Sort an association list by key (as `url.Values.Encode` sorts keys). -/
def sortByKey (q : Values) : Values := q.foldr insertByKey []

/-- Uppercase hex digit byte. -/
def hexDigit (n : Fin 16) : Byte :=
  if n.val < 10 then ⟨48 + n.val, by omega⟩ else ⟨55 + n.val, by omega⟩

/-- Bytes Go's `url.QueryEscape` leaves unescaped: `A–Z a–z 0–9 - _ . ~`. -/
def isUnreserved (b : Byte) : Bool :=
  (65 ≤ b.val && b.val ≤ 90) || (97 ≤ b.val && b.val ≤ 122) ||
  (48 ≤ b.val && b.val ≤ 57) || b.val == 45 || b.val == 95 || b.val == 46 || b.val == 126

/-- Model of Go `url.QueryEscape`: unreserved bytes kept, space becomes `+`,
every other byte becomes `%XX` with uppercase hex. -/
def queryEscape (bs : Bytes) : Bytes :=
  bs.foldr
    (fun b acc =>
      if isUnreserved b then b :: acc
      else if b.val = 32 then ⟨43, by norm_num⟩ :: acc
      else ⟨37, by norm_num⟩ ::
        hexDigit ⟨b.val / 16, by have := b.isLt; omega⟩ ::
        hexDigit ⟨b.val % 16, by omega⟩ :: acc)
    []

/-- Join byte strings with a separator. -/
def joinWith (sep : Bytes) : List Bytes → Bytes
  | [] => []
  | [x] => x
  | x :: y :: rest => x ++ sep ++ joinWith sep (y :: rest)

/-- Model of `url.Values.Encode`: keys sorted bytewise, each key's values in
order as `key=value` pairs, percent-escaped and joined with `&`. -/
def encodeValues (q : Values) : Bytes :=
  joinWith (byteStr "&")
    (((sortByKey q).map
      (fun kv => kv.2.map (fun v => queryEscape kv.1 ++ byteStr "=" ++ queryEscape v))).flatten)

/-- Model of `url.Values.Set`: drop every binding of the key, bind it to the
single new value (association-list rendering of a Go map update). -/
def setVal (q : Values) (k v : Bytes) : Values :=
  q.filter (fun kv => decide (kv.1 ≠ k)) ++ [(k, [v])]

/-- The `cursor` query parameter name. -/
def cursorKey : Bytes := byteStr "cursor"

/-- Modelled from the spec (§4.3 step 6): one RFC 8288 entry
`<basePath?query&cursor=TOKEN>; rel="REL"` (the cursor parameter overwrites
any existing one; the query is never empty here since `cursor` is set). -/
def linkEntry (basePath : Bytes) (query : Values) (tok rel : Bytes) : Bytes :=
  byteStr "<" ++ basePath ++ byteStr "?" ++ encodeValues (setVal query cursorKey tok) ++
    byteStr ">; rel=" ++ byteStr "\x22" ++ rel ++ byteStr "\x22"

/-- Modelled from the spec (§4.3): `BuildLinkHeader` — a `rel="next"` entry
when `nextCursor` is non-empty, a `rel="prev"` entry when `prevCursor` is
non-empty, comma-joined, empty when neither exists. -/
def BuildLinkHeader (basePath : Bytes) (query : Values) (next prev : Bytes) : Bytes :=
  joinWith (byteStr ", ")
    ((if next ≠ [] then [linkEntry basePath query next (byteStr "next")] else []) ++
      (if prev ≠ [] then [linkEntry basePath query prev (byteStr "prev")] else []))

/-! ## `Paginate`, modelled from the spec (§4.3) and the package's tests -/

/-- `PaginationResult` from the pagination package. -/
structure PaginationResult (α : Type) where
  Items : List α
  Total : ℕ
  NextCursor : Bytes
  PrevCursor : Bytes
  LinkHeader : Bytes
deriving DecidableEq

/-- Modelled from the spec (§4.3 step 1): the page's start index — 0 for an
empty cursor value; one past the first item whose id equals the cursor value;
0 when no item matches (silent restart). -/
def startIndex {α : Type} (items : List α) (idOf : α → Bytes) (cursor : Cursor) : ℕ :=
  if cursor.Value = [] then 0
  else
    match items.findIdx? (fun it => decide (idOf it = cursor.Value)) with
    | some i => i + 1
    | none => 0

/-- The visible page: at most `limit` items from the start index (§4.3 step 2). -/
def pageSlice {α : Type} (items : List α) (start limit : ℕ) : List α :=
  (items.drop start).take limit

/-- Modelled from the spec (§4.3 step 4): the next cursor — empty when the
page reaches the end, otherwise `{cursorType, idOf(last returned item)}`. -/
def nextCursorOf {α : Type} (items : List α) (start limit : ℕ) (ct : Bytes)
    (idOf : α → Bytes) : Bytes :=
  if items.length ≤ start + (pageSlice items start limit).length then []
  else ((pageSlice items start limit).getLast?).elim [] (fun it => Cursor.Encode ⟨ct, idOf it⟩)

/-- The previous cursor's value, per the package's tests
(`TestPaginate_PrevCursorSecondPage` / `ThirdPage`): empty when the current
page is the second page or earlier (`start ≤ limit`), otherwise the id of the
item just before the predecessor page's start, `items[start − limit − 1]` —
so that replaying it lands on the predecessor page. -/
def prevValOf {α : Type} (items : List α) (start limit : ℕ) (idOf : α → Bytes) : Bytes :=
  if start ≤ limit then []
  else ((items.drop (start - limit - 1)).head?).elim [] idOf

/-- Modelled from the spec (§4.3 step 5) as corrected by the package's tests:
empty on the first page, otherwise an encoded `{cursorType, prevValOf}`. -/
def prevCursorOf {α : Type} (items : List α) (start limit : ℕ) (ct : Bytes)
    (idOf : α → Bytes) : Bytes :=
  if start = 0 then [] else Cursor.Encode ⟨ct, prevValOf items start limit idOf⟩

/-- Modelled from the spec (§4.3): `Paginate`. -/
def Paginate {α : Type} (items : List α) (cursor : Cursor) (limit : ℕ)
    (cursorType : Bytes) (idOf : α → Bytes) (basePath : Bytes) (query : Values) :
    PaginationResult α :=
  { Items := pageSlice items (startIndex items idOf cursor) limit
    Total := items.length
    NextCursor := nextCursorOf items (startIndex items idOf cursor) limit cursorType idOf
    PrevCursor := prevCursorOf items (startIndex items idOf cursor) limit cursorType idOf
    LinkHeader := BuildLinkHeader basePath query
      (nextCursorOf items (startIndex items idOf cursor) limit cursorType idOf)
      (prevCursorOf items (startIndex items idOf cursor) limit cursorType idOf) }

/-! ## The items handler (`listHandler` from the items package under `src/`) -/

/-- An item as in the items package. -/
structure Item where
  id : Bytes
  category : Bytes
deriving DecidableEq

/-- `filterItems`: keep the items of the category; empty category keeps all. -/
def filterItems (items : List Item) (category : Bytes) : List Item :=
  if category = [] then items
  else items.filter (fun it => decide (it.category = category))

/-- `findItemIndex` (`slices.IndexFunc`); Go's −1 is `none`. -/
def findItemIndex (items : List Item) (idv : Bytes) : Option ℕ :=
  items.findIdx? (fun it => decide (it.id = idv))

/-- The items endpoint's cursor type. -/
def itemCursorType : Bytes := byteStr "item"

/-- A handler outcome: a 400 client error with a message, or a page. -/
inductive ListOutcome where
  | clientError : Bytes → ListOutcome
  | ok : PaginationResult Item → ListOutcome
deriving DecidableEq

/-- The query the handler preserves in links. -/
def itemsQuery (category : Bytes) : Values :=
  if category = [] then [] else [(byteStr "category", [category])]

/-- Model of `listHandler`'s decision sequence (items handler under `src/`):
decode the cursor (400 on failure), reject a type mismatch (400), reject a
non-empty cursor value absent from the filtered items (400), else paginate.
Binding and limit validation happen upstream of this logic. -/
def listHandler (cursorToken : Bytes) (limit : ℕ) (category : Bytes)
    (allItems : List Item) : ListOutcome :=
  match DecodeCursor cursorToken with
  | .error _ => .clientError (byteStr "invalid cursor format")
  | .ok cursor =>
    if cursor.Ty ≠ [] ∧ cursor.Ty ≠ itemCursorType then
      .clientError (byteStr "cursor type mismatch")
    else if cursor.Value ≠ [] ∧
        findItemIndex (filterItems allItems category) cursor.Value = none then
      .clientError (byteStr "cursor references unknown item")
    else
      .ok (Paginate (filterItems allItems category) cursor limit itemCursorType
        (fun it => it.id) (byteStr "/v1/items") (itemsQuery category))

/-! ## Concrete pagination fixtures (mirroring the package's tests) -/

/-- The ten-item collection of the pagination tests (`ids a…j`). -/
def c4Items : List Bytes :=
  [byteStr "a", byteStr "b", byteStr "c", byteStr "d", byteStr "e",
   byteStr "f", byteStr "g", byteStr "h", byteStr "i", byteStr "j"]

/-- One page over `c4Items` with limit 3 (ids are the items themselves). -/
def c4Page (cur : Cursor) : PaginationResult Bytes :=
  Paginate c4Items cur 3 (byteStr "item") (fun b => b) (byteStr "/items") []

/-- Decode with zero-cursor fallback, for replaying a page's cursor. -/
def decodeD (t : Bytes) : Cursor :=
  match DecodeCursor t with
  | .ok c => c
  | .error _ => ⟨[], []⟩

/-- The second page, reached by replaying the first page's next cursor. -/
def c4Second : PaginationResult Bytes := c4Page (decodeD (c4Page ⟨[], []⟩).NextCursor)

/-- The third page, reached by replaying the second page's next cursor. -/
def c4Third : PaginationResult Bytes := c4Page (decodeD c4Second.NextCursor)

/-- A small item fixture for the handler. -/
def c5Items : List Item :=
  [⟨byteStr "a", byteStr "tools"⟩, ⟨byteStr "b", byteStr "tools"⟩,
   ⟨byteStr "c", byteStr "power"⟩]

theorem lexLE_refl (p : ℕ × ℚ) : lexLE p p := Or.inr ⟨rfl, le_refl _⟩

theorem lexLE_trans {p q r : ℕ × ℚ} (h1 : lexLE p q) (h2 : lexLE q r) : lexLE p r := by
  rcases h1 with h1 | ⟨h1a, h1b⟩ <;> rcases h2 with h2 | ⟨h2a, h2b⟩
  · exact Or.inl (h1.trans h2)
  · exact Or.inl (h2a ▸ h1)
  · exact Or.inl (h1a ▸ h2)
  · exact Or.inr ⟨h1a.trans h2a, h1b.trans h2b⟩

theorem lexLE_antisymm {p w : ℕ × ℚ} (h1 : lexLE p w) (h2 : lexLE w p) : p = w := by
  rcases h1 with h1 | ⟨h1a, h1b⟩ <;> rcases h2 with h2 | ⟨h2a, h2b⟩ <;>
    [skip; skip; skip; exact Prod.ext h1a (le_antisymm h1b h2b)] <;> omega

theorem lexLE_of_not {a c : ℕ × ℚ} (h : ¬(c.1 > a.1 ∨ (c.1 = a.1 ∧ c.2 > a.2))) :
    lexLE c a := by
  push_neg at h
  rcases lt_or_eq_of_le h.1 with hlt | heq
  · exact Or.inl hlt
  · exact Or.inr ⟨heq, h.2 heq⟩

/-- One loop iteration, CBOR projection: the state's `(cborS, cborQ)` pair is
updated to the lexicographic max with the range's CBOR candidate, if any. -/
theorem stepFam_cborPair (st : FamState) (mr : MediaRange) :
    ((stepFam st mr).cborS, (stepFam st mr).cborQ)
      = (cborCand mr).elim (st.cborS, st.cborQ) (pairMax (st.cborS, st.cborQ)) := by
  rcases hmi : matchInfo mr with ⟨mc, mj, s⟩
  by_cases hq : mr.q = 0
  · simp [stepFam, cborCand, hq]
  · simp only [stepFam, cborCand, hmi, hq, if_false, ne_eq, not_false_iff, true_and]
    cases mc <;> cases mj <;>
      simp only [Bool.false_eq_true, false_and, true_and, if_false, if_true,
        Option.elim, pairMax] <;>
      first
      | rfl
      | (split_ifs <;> rfl)

/-- One loop iteration, JSON projection. -/
theorem stepFam_jsonPair (st : FamState) (mr : MediaRange) :
    ((stepFam st mr).jsonS, (stepFam st mr).jsonQ)
      = (jsonCand mr).elim (st.jsonS, st.jsonQ) (pairMax (st.jsonS, st.jsonQ)) := by
  rcases hmi : matchInfo mr with ⟨mc, mj, s⟩
  by_cases hq : mr.q = 0
  · simp [stepFam, jsonCand, hq]
  · simp only [stepFam, jsonCand, hmi, hq, if_false, ne_eq, not_false_iff, true_and]
    cases mc <;> cases mj <;>
      simp only [Bool.false_eq_true, false_and, true_and, if_false, if_true,
        Option.elim, pairMax] <;>
      first
      | rfl
      | (split_ifs <;> rfl)

/-- The whole loop, CBOR projection: a fold of `pairMax` over the candidates. -/
theorem foldl_cborPair (ranges : List MediaRange) (st : FamState) :
    ((ranges.foldl stepFam st).cborS, (ranges.foldl stepFam st).cborQ)
      = (cborCands ranges).foldl pairMax (st.cborS, st.cborQ) := by
  induction ranges generalizing st with
  | nil => rfl
  | cons mr rest ih =>
    simp only [List.foldl_cons]
    rw [ih (stepFam st mr), stepFam_cborPair st mr]
    cases hc : cborCand mr with
    | none => simp [cborCands, List.filterMap_cons, hc]
    | some c => simp [cborCands, List.filterMap_cons, hc]

/-- The whole loop, JSON projection. -/
theorem foldl_jsonPair (ranges : List MediaRange) (st : FamState) :
    ((ranges.foldl stepFam st).jsonS, (ranges.foldl stepFam st).jsonQ)
      = (jsonCands ranges).foldl pairMax (st.jsonS, st.jsonQ) := by
  induction ranges generalizing st with
  | nil => rfl
  | cons mr rest ih =>
    simp only [List.foldl_cons]
    rw [ih (stepFam st mr), stepFam_jsonPair st mr]
    cases hc : jsonCand mr with
    | none => simp [jsonCands, List.filterMap_cons, hc]
    | some c => simp [jsonCands, List.filterMap_cons, hc]

/-- Folding `pairMax` yields the accumulator or a list member, dominates every
list member, and dominates the accumulator. -/
theorem foldl_pairMax_spec (l : List (ℕ × ℚ)) (a : ℕ × ℚ) :
    (l.foldl pairMax a = a ∨ l.foldl pairMax a ∈ l)
      ∧ (∀ p ∈ l, lexLE p (l.foldl pairMax a)) ∧ lexLE a (l.foldl pairMax a) := by
  induction l generalizing a with
  | nil => exact ⟨Or.inl rfl, by simp, lexLE_refl a⟩
  | cons c t ih =>
    obtain ⟨hmem, hdom, hacc⟩ := ih (pairMax a c)
    have hac : lexLE a (pairMax a c) := by
      unfold pairMax; split_ifs with h
      · rcases h with h | ⟨h1, h2⟩
        · exact Or.inl h
        · exact Or.inr ⟨h1.symm, le_of_lt h2⟩
      · exact lexLE_refl a
    have hcc : lexLE c (pairMax a c) := by
      unfold pairMax; split_ifs with h
      · exact lexLE_refl c
      · exact lexLE_of_not h
    refine ⟨?_, ?_, lexLE_trans hac hacc⟩
    · rcases hmem with hm | hm
      · rw [List.foldl_cons, hm]
        unfold pairMax; split_ifs
        · exact Or.inr (List.mem_cons_self _ _)
        · exact Or.inl rfl
      · exact Or.inr (List.mem_cons_of_mem _ hm)
    · intro p hp
      rcases List.mem_cons.mp hp with rfl | hp
      · exact lexLE_trans hcc hacc
      · exact hdom p hp

/-- Every q value produced by `parseSegment`'s parameter scan stays in `[0, 1]`. -/
theorem qParamStep_bounds (q : ℚ) (param : Str) (h : 0 ≤ q ∧ q ≤ 1) :
    0 ≤ qParamStep q param ∧ qParamStep q param ≤ 1 := by
  unfold qParamStep
  split_ifs with h1
  · cases hp : parseFloat? ((trimSpace param).drop 2) with
    | none => simpa using h
    | some v =>
      simp only [hp]
      split_ifs with h2
      · exact h2
      · exact h
  · exact h

/-- The q of every parsed segment stays in `[0, 1]`. -/
theorem segmentQ_bounds (part : Str) : 0 ≤ segmentQ part ∧ segmentQ part ≤ 1 := by
  have hfold : ∀ (params : List Str) (q0 : ℚ), 0 ≤ q0 ∧ q0 ≤ 1 →
      0 ≤ params.foldl qParamStep q0 ∧ params.foldl qParamStep q0 ≤ 1 := by
    intro params
    induction params with
    | nil => intro q0 hq0; simpa using hq0
    | cons p t iht =>
      intro q0 hq0
      exact iht _ (qParamStep_bounds q0 p hq0)
  unfold segmentQ
  cases hcut : cutOn ';' part with
  | none => norm_num
  | some pr => exact hfold (splitOnSep ';' pr.2) 1 (by norm_num)

/-- The q field of `parseSegment` is `segmentQ`. -/
theorem parseSegment_q (part : Str) : (parseSegment part).q = segmentQ part := by
  unfold parseSegment
  cases cutOn '/' (segmentMediaType part) <;> rfl

/-- Every media range returned by `parseAccept` has `0 ≤ q ≤ 1`. -/
theorem parseAccept_q_bounds (header : Str) :
    ∀ mr ∈ parseAccept header, 0 ≤ mr.q ∧ mr.q ≤ 1 := by
  intro mr hmr
  unfold parseAccept at hmr
  split_ifs at hmr with h
  · simp at hmr
  · obtain ⟨part, _, hpart⟩ := List.mem_filterMap.mp hmr
    by_cases h2 : trimSpace part = []
    · rw [if_pos h2] at hpart
      exact absurd hpart (by simp)
    · rw [if_neg h2] at hpart
      rw [← Option.some.inj hpart, parseSegment_q]
      exact segmentQ_bounds _

/-- `matchInfo` only produces the seven switch outcomes of `selectFormat`. -/
theorem matchInfo_shape (mr : MediaRange) :
    matchInfo mr = (true, false, 4) ∨ matchInfo mr = (false, true, 4) ∨
    matchInfo mr = (true, false, 3) ∨ matchInfo mr = (false, true, 3) ∨
    matchInfo mr = (true, true, 2) ∨ matchInfo mr = (true, true, 1) ∨
    matchInfo mr = (false, false, 0) := by
  unfold matchInfo
  split_ifs <;> simp

/-- A CBOR candidate has specificity at least 1 and carries the range's q,
which is nonzero. -/
theorem cborCand_bounds {mr : MediaRange} {c : ℕ × ℚ} (h : cborCand mr = some c) :
    1 ≤ c.1 ∧ c.2 = mr.q ∧ mr.q ≠ 0 := by
  unfold cborCand at h
  split_ifs at h with h1
  · obtain ⟨hq, hm⟩ := h1
    rw [← Option.some.inj h]
    refine ⟨?_, rfl, hq⟩
    rcases matchInfo_shape mr with h' | h' | h' | h' | h' | h' | h' <;>
      rw [h'] at hm ⊢ <;> simp_all

/-- A JSON candidate has specificity at least 1 and carries the range's q,
which is nonzero. -/
theorem jsonCand_bounds {mr : MediaRange} {c : ℕ × ℚ} (h : jsonCand mr = some c) :
    1 ≤ c.1 ∧ c.2 = mr.q ∧ mr.q ≠ 0 := by
  unfold jsonCand at h
  split_ifs at h with h1
  · obtain ⟨hq, hm⟩ := h1
    rw [← Option.some.inj h]
    refine ⟨?_, rfl, hq⟩
    rcases matchInfo_shape mr with h' | h' | h' | h' | h' | h' | h' <;>
      rw [h'] at hm ⊢ <;> simp_all

/-- Candidates of a parsed header have `specificity ≥ 1` and `0 < q ≤ 1`. -/
theorem cborCands_bounds (header : Str) :
    ∀ c ∈ cborCands (parseAccept header), 1 ≤ c.1 ∧ 0 < c.2 ∧ c.2 ≤ 1 := by
  intro c hc
  obtain ⟨mr, hmr, hcand⟩ := List.mem_filterMap.mp hc
  obtain ⟨hs, hq, hq0⟩ := cborCand_bounds hcand
  obtain ⟨hq1, hq2⟩ := parseAccept_q_bounds header mr hmr
  exact ⟨hs, by rw [hq]; exact lt_of_le_of_ne hq1 (Ne.symm hq0), hq ▸ hq2⟩

/-- JSON-side version of `cborCands_bounds`. -/
theorem jsonCands_bounds (header : Str) :
    ∀ c ∈ jsonCands (parseAccept header), 1 ≤ c.1 ∧ 0 < c.2 ∧ c.2 ≤ 1 := by
  intro c hc
  obtain ⟨mr, hmr, hcand⟩ := List.mem_filterMap.mp hc
  obtain ⟨hs, hq, hq0⟩ := jsonCand_bounds hcand
  obtain ⟨hq1, hq2⟩ := parseAccept_q_bounds header mr hmr
  exact ⟨hs, by rw [hq]; exact lt_of_le_of_ne hq1 (Ne.symm hq0), hq ▸ hq2⟩

theorem negState_cborPair (header : Str) :
    ((negState header).cborS, (negState header).cborQ)
      = (cborCands (parseAccept header)).foldl pairMax (0, -1) :=
  foldl_cborPair (parseAccept header) initFam

theorem negState_jsonPair (header : Str) :
    ((negState header).jsonS, (negState header).jsonQ)
      = (jsonCands (parseAccept header)).foldl pairMax (0, -1) :=
  foldl_jsonPair (parseAccept header) initFam

/-- `selectFormat` equals the final resolution step applied to the loop state
(the empty-ranges early return coincides with the all-sentinel state). -/
theorem selectFormat_eq_negState (header : Str) :
    selectFormat header =
      (if (negState header).cborQ ≤ 0 ∧ (negState header).jsonQ ≤ 0 then false
       else if (negState header).cborQ > (negState header).jsonQ then true
       else if (negState header).jsonQ > (negState header).cborQ then false
       else decide ((negState header).cborS > (negState header).jsonS)) := by
  unfold selectFormat selectFormatRanges negState
  cases hp : parseAccept header with
  | nil => simp [initFam]
  | cons mr rest => simp [initFam]

/-- With no surviving CBOR candidate the state keeps its sentinels. -/
theorem negState_cbor_empty {header : Str} (h : cborCands (parseAccept header) = []) :
    (negState header).cborS = 0 ∧ (negState header).cborQ = -1 := by
  have hp := negState_cborPair header
  rw [h] at hp
  exact ⟨congrArg Prod.fst hp, congrArg Prod.snd hp⟩

/-- With no surviving JSON candidate the state keeps its sentinels. -/
theorem negState_json_empty {header : Str} (h : jsonCands (parseAccept header) = []) :
    (negState header).jsonS = 0 ∧ (negState header).jsonQ = -1 := by
  have hp := negState_jsonPair header
  rw [h] at hp
  exact ⟨congrArg Prod.fst hp, congrArg Prod.snd hp⟩

/-- With surviving CBOR candidates the state holds the family's winning
candidate, whose q is positive. -/
theorem negState_cbor_nonempty {header : Str}
    (hne : cborCands (parseAccept header) ≠ []) :
    isBestCand ((negState header).cborS, (negState header).cborQ)
        (cborCands (parseAccept header))
      ∧ 0 < (negState header).cborQ := by
  have hp := negState_cborPair header
  obtain ⟨hmem, hdom, hacc⟩ := foldl_pairMax_spec (cborCands (parseAccept header)) (0, -1)
  rw [← hp] at hmem hdom
  rcases hmem with hm | hm
  · exfalso
    obtain ⟨c, hc⟩ := List.exists_mem_of_ne_nil _ hne
    have h1 := hdom c hc
    rw [hm] at h1
    have hb := cborCands_bounds header c hc
    rcases h1 with h1 | ⟨h1, _⟩ <;> omega
  · refine ⟨⟨hm, hdom⟩, ?_⟩
    exact (cborCands_bounds header _ hm).2.1

/-- With surviving JSON candidates the state holds the family's winning
candidate, whose q is positive. -/
theorem negState_json_nonempty {header : Str}
    (hne : jsonCands (parseAccept header) ≠ []) :
    isBestCand ((negState header).jsonS, (negState header).jsonQ)
        (jsonCands (parseAccept header))
      ∧ 0 < (negState header).jsonQ := by
  have hp := negState_jsonPair header
  obtain ⟨hmem, hdom, hacc⟩ := foldl_pairMax_spec (jsonCands (parseAccept header)) (0, -1)
  rw [← hp] at hmem hdom
  rcases hmem with hm | hm
  · exfalso
    obtain ⟨c, hc⟩ := List.exists_mem_of_ne_nil _ hne
    have h1 := hdom c hc
    rw [hm] at h1
    have hb := jsonCands_bounds header c hc
    rcases h1 with h1 | ⟨h1, _⟩ <;> omega
  · refine ⟨⟨hm, hdom⟩, ?_⟩
    exact (jsonCands_bounds header _ hm).2.1

/-- C1: for every Accept header, `selectFormat` returns `false` (JSON) when the
CBOR family has no surviving candidate (in particular when neither family has
one); returns `true` when only the CBOR family has a surviving candidate; and
when both families have winning candidates (the lexicographically greatest by
specificity then q), it returns `true` exactly when the CBOR winner's q is
strictly greater than the JSON winner's q, or the q values are equal and the
CBOR winner's specificity is strictly greater — so on a full tie JSON wins. -/
theorem selectFormat_family_resolution (header : Str) :
    (cborCands (parseAccept header) = [] → selectFormat header = false)
    ∧ (cborCands (parseAccept header) ≠ [] → jsonCands (parseAccept header) = [] →
        selectFormat header = true)
    ∧ (∀ wc wj, isBestCand wc (cborCands (parseAccept header)) →
        isBestCand wj (jsonCands (parseAccept header)) →
        (selectFormat header = true ↔ wj.2 < wc.2 ∨ (wc.2 = wj.2 ∧ wj.1 < wc.1))) := by
  have hEq := selectFormat_eq_negState header
  refine ⟨?_, ?_, ?_⟩
  · intro hC
    obtain ⟨hS, hQ⟩ := negState_cbor_empty hC
    by_cases hJ : jsonCands (parseAccept header) = []
    · obtain ⟨hS2, hQ2⟩ := negState_json_empty hJ
      rw [hEq, hQ, hQ2]
      norm_num
    · obtain ⟨hbest, hpos⟩ := negState_json_nonempty hJ
      rw [hEq, hQ]
      split_ifs with h1 h2 h3
      · rfl
      · exfalso; linarith
      · rfl
      · exfalso; exact h3 (by linarith)
  · intro hC hJ
    obtain ⟨hbest, hpos⟩ := negState_cbor_nonempty hC
    obtain ⟨hS2, hQ2⟩ := negState_json_empty hJ
    rw [hEq, hQ2]
    split_ifs with h1 h2 h3
    · exfalso; linarith [h1.1]
    · rfl
    · exfalso; linarith
    · exfalso; exact h2 (by linarith)
  · intro wc wj hwc hwj
    have hCne := List.ne_nil_of_mem hwc.1
    have hJne := List.ne_nil_of_mem hwj.1
    obtain ⟨hbestC, hposC⟩ := negState_cbor_nonempty hCne
    obtain ⟨hbestJ, hposJ⟩ := negState_json_nonempty hJne
    have hCeq : wc = ((negState header).cborS, (negState header).cborQ) :=
      lexLE_antisymm (hbestC.2 wc hwc.1) (hwc.2 _ hbestC.1)
    have hJeq : wj = ((negState header).jsonS, (negState header).jsonQ) :=
      lexLE_antisymm (hbestJ.2 wj hwj.1) (hwj.2 _ hbestJ.1)
    have hc1 : wc.1 = (negState header).cborS := congrArg Prod.fst hCeq
    have hc2 : wc.2 = (negState header).cborQ := congrArg Prod.snd hCeq
    have hj1 : wj.1 = (negState header).jsonS := congrArg Prod.fst hJeq
    have hj2 : wj.2 = (negState header).jsonQ := congrArg Prod.snd hJeq
    rw [← hc2] at hposC
    rw [← hj2] at hposJ
    rw [hEq, ← hc1, ← hc2, ← hj1, ← hj2]
    split_ifs with h1 h2 h3
    · exfalso; linarith [h1.1]
    · exact iff_of_true rfl (Or.inl h2)
    · refine iff_of_false (by simp) ?_
      rintro (h | ⟨he, _⟩) <;> linarith
    · have heq : wc.2 = wj.2 := le_antisymm (not_lt.mp h2) (not_lt.mp h3)
      simp only [decide_eq_true_eq]
      constructor
      · intro h
        exact Or.inr ⟨heq, h⟩
      · rintro (h | ⟨_, h⟩)
        · exact absurd h h2
        · exact h

/-- C1 witness: on `Accept: "application/json, application/cbor"` both family
winners are `(specificity 3, q 1)`; the resolution theorem forces the JSON
default on this full tie. -/
theorem selectFormat_family_resolution_witness :
    selectFormat (chars "application/json, application/cbor") = false := by
  have h := (selectFormat_family_resolution (chars "application/json, application/cbor")).2.2
      (3, 1) (3, 1) (by decide) (by decide)
  cases hb : selectFormat (chars "application/json, application/cbor") with
  | false => rfl
  | true => exact absurd (h.mp hb) (by norm_num)

/-! ## Helper lemmas on `cutOn`, `trimSpace`, and the q-parameter scan -/

theorem cutOn_append {α : Type} [DecidableEq α] (sep : α) (pre post : List α)
    (h : sep ∉ pre) : cutOn sep (pre ++ sep :: post) = some (pre, post) := by
  induction pre with
  | nil => simp [cutOn]
  | cons c t ih =>
    have hcs : c ≠ sep := fun hc => h (by rw [hc]; exact List.mem_cons_self _ _)
    have hts : sep ∉ t := fun hm => h (List.mem_cons_of_mem c hm)
    simp only [List.cons_append, cutOn, if_neg hcs, List.append_eq]
    rw [ih hts]
    rfl

theorem cutOn_eq_none {α : Type} [DecidableEq α] {sep : α} {l : List α}
    (h : sep ∉ l) : cutOn sep l = none := by
  induction l with
  | nil => rfl
  | cons c t ih =>
    have hcs : c ≠ sep := fun hc => h (by rw [hc]; exact List.mem_cons_self _ _)
    have hts : sep ∉ t := fun hm => h (List.mem_cons_of_mem c hm)
    simp only [cutOn, if_neg hcs]
    rw [ih hts]
    rfl

theorem mem_of_mem_trimSpace {a : Char} {s : Str} (h : a ∈ trimSpace s) : a ∈ s := by
  unfold trimSpace at h
  rw [List.mem_reverse] at h
  have h1 := ((List.dropWhile_suffix isSpaceChar).sublist).subset h
  rw [List.mem_reverse] at h1
  exact ((List.dropWhile_suffix isSpaceChar).sublist).subset h1

theorem qParamStep_eq_validQ (q : ℚ) (param : Str) :
    qParamStep q param = (validQ param).getD q := by
  unfold qParamStep validQ
  split_ifs with h1
  · cases hp : parseFloat? ((trimSpace param).drop 2) with
    | none => rfl
    | some v =>
      show (if 0 ≤ v ∧ v ≤ 1 then v else q)
        = (if 0 ≤ v ∧ v ≤ 1 then some v else none).getD q
      split_ifs <;> rfl
  · rfl

theorem getLastD_cons (xs : List ℚ) (v q0 : ℚ) :
    ((v :: xs).getLast?).getD q0 = (xs.getLast?).getD v := by
  cases xs with
  | nil => rfl
  | cons y ys =>
    rw [List.getLast?_cons_cons]
    have hs : ((y :: ys).getLast?).isSome := by
      rw [List.getLast?_isSome]
      simp
    obtain ⟨a, ha⟩ := Option.isSome_iff_exists.mp hs
    rw [ha]
    rfl

/-- The parameter scan computes the last valid `q=` occurrence, defaulting to
the accumulator when no occurrence is valid. -/
theorem foldl_qParamStep_lastValid (l : List Str) (q0 : ℚ) :
    l.foldl qParamStep q0 = ((l.filterMap validQ).getLast?).getD q0 := by
  induction l generalizing q0 with
  | nil => rfl
  | cons p t ih =>
    rw [List.foldl_cons, ih (qParamStep q0 p), qParamStep_eq_validQ,
      List.filterMap_cons]
    cases hv : validQ p with
    | none => rfl
    | some v =>
      simp only [Option.getD_some]
      exact (getLastD_cons (t.filterMap validQ) v q0).symm

/-! ## C3: q = 0 handling -/

/-- The loop ignores ranges with `q = 0`. -/
theorem stepFam_skip_zero {mr : MediaRange} (h : mr.q = 0) (st : FamState) :
    stepFam st mr = st := by
  simp [stepFam, h]

theorem foldl_stepFam_filter (l : List MediaRange) (st : FamState) :
    (l.filter (fun mr => decide (mr.q ≠ 0))).foldl stepFam st = l.foldl stepFam st := by
  induction l generalizing st with
  | nil => rfl
  | cons mr t ih =>
    by_cases hq : mr.q = 0
    · rw [List.filter_cons_of_neg (by simp [hq]), List.foldl_cons,
        stepFam_skip_zero hq, ih]
    · rw [List.filter_cons_of_pos (by simp [hq]), List.foldl_cons, List.foldl_cons, ih]

/-- C3 counterexample: the claim says an explicit `application/cbor;q=0`
excludes the CBOR family even when a later, lower-specificity wildcard would
match it, which would force JSON here; the code lets the wildcard re-introduce
the CBOR family (q 1, specificity 2) and its winner beats the JSON winner's
q 0.5, so `selectFormat` picks CBOR. -/
theorem selectFormat_zeroQ_exclusion_counterexample :
    selectFormat (chars "application/cbor;q=0, application/*;q=1, application/json;q=0.5")
      = true := by
  with_unfolding_all rfl

/-- C3 amended: a media range with `q = 0` never contributes to either family's
best candidate — deleting all `q = 0` ranges leaves `selectFormat` unchanged —
but such a range is merely skipped, not an exclusion of its family (a later
wildcard may still match the family, see the counterexample); in particular
`selectFormat "application/cbor;q=0, application/json"` is `false` (JSON). -/
theorem selectFormat_skips_zeroQ (header : Str) :
    selectFormatRanges ((parseAccept header).filter (fun mr => decide (mr.q ≠ 0)))
        = selectFormat header
    ∧ selectFormat (chars "application/cbor;q=0, application/json") = false := by
  refine ⟨?_, by with_unfolding_all rfl⟩
  unfold selectFormat selectFormatRanges
  by_cases hl : parseAccept header = []
  · simp [hl]
  · by_cases hf : (parseAccept header).filter (fun mr => decide (mr.q ≠ 0)) = []
    · have hfold : (parseAccept header).foldl stepFam ⟨-1, -1, 0, 0⟩
          = (⟨-1, -1, 0, 0⟩ : FamState) := by
        rw [← foldl_stepFam_filter, hf]
        rfl
      rw [hf, if_pos rfl, if_neg hl, hfold]
      norm_num
    · rw [if_neg hf, if_neg hl, foldl_stepFam_filter]

/-! ## C7: q parameter precedence within a segment -/

/-- C7 counterexample: in `application/json;q=0.5;q=2` the last `q=` occurrence
(`q=2`, out of range) does not reset q to 1.0; the earlier valid `q=0.5`
remains in effect, contradicting the claimed fall-back to 1.0. -/
theorem parseAccept_lastQ_counterexample :
    parseAccept (chars "application/json;q=0.5;q=2")
      = [{ typ := chars "application", subtype := chars "json", q := 1/2 }]
    ∧ ((1 : ℚ)/2 ≠ 1) := by
  constructor
  · with_unfolding_all rfl
  · norm_num

/-- C7 amended: for a segment `mt ; ps`, the parsed q is the value of the last
`q=` occurrence (case-insensitive) that parses and lies in `[0, 1]`; occurrences
that fail to parse or are out of range are skipped — leaving any earlier valid
occurrence in effect — and if no occurrence is valid, q is 1.0. -/
theorem parseSegment_q_lastValid (mt ps : Str) (h : ';' ∉ mt) :
    (parseSegment (mt ++ ';' :: ps)).q
      = ((((splitOnSep ';' ps).filterMap validQ).getLast?).getD 1) := by
  rw [parseSegment_q]
  unfold segmentQ
  rw [cutOn_append ';' mt ps h]
  exact foldl_qParamStep_lastValid _ 1

/-- C7 witness: instantiating the amended law on
`application/json;q=0.5;q=2` yields q = 0.5. -/
theorem parseSegment_q_lastValid_witness :
    (parseSegment (chars "application/json" ++ ';' :: chars "q=0.5;q=2")).q = 1/2 :=
  (parseSegment_q_lastValid (chars "application/json") (chars "q=0.5;q=2")
    (by decide)).trans (by with_unfolding_all rfl)

/-! ## C10: parameters other than q are ignored -/

theorem segmentMediaType_append (mt ps : Str) (h : ';' ∉ mt) :
    segmentMediaType (mt ++ ';' :: ps) = trimSpace mt := by
  unfold segmentMediaType
  rw [cutOn_append ';' mt ps h]

theorem segmentMediaType_noSemi (mt : Str) (h : ';' ∉ mt) :
    segmentMediaType mt = mt := by
  unfold segmentMediaType
  rw [cutOn_eq_none h]

/-- C10: parameters other than q never affect negotiation: the type and
subtype of a parsed segment come solely from the (trimmed) text before the
first `;`; with no valid `q=` parameter the q stays 1.0; and concretely
`application/json;charset=utf-8` parses identically to `application/json`,
matching the JSON family with specificity 3 and no CBOR match. -/
theorem parseSegment_params_ignored :
    (∀ mt ps : Str, ';' ∉ mt →
      (parseSegment (mt ++ ';' :: ps)).typ = (parseSegment (trimSpace mt)).typ
      ∧ (parseSegment (mt ++ ';' :: ps)).subtype = (parseSegment (trimSpace mt)).subtype)
    ∧ (∀ mt ps : Str, ';' ∉ mt → (∀ p ∈ splitOnSep ';' ps, validQ p = none) →
      (parseSegment (mt ++ ';' :: ps)).q = 1)
    ∧ parseAccept (chars "application/json;charset=utf-8")
        = parseAccept (chars "application/json")
    ∧ jsonCands (parseAccept (chars "application/json;charset=utf-8")) = [(3, 1)]
    ∧ cborCands (parseAccept (chars "application/json;charset=utf-8")) = [] := by
  refine ⟨?_, ?_, by decide, by decide, by decide⟩
  · intro mt ps h
    have h' : ';' ∉ trimSpace mt := fun hm => h (mem_of_mem_trimSpace hm)
    unfold parseSegment
    rw [segmentMediaType_append mt ps h, segmentMediaType_noSemi (trimSpace mt) h']
    cases cutOn '/' (trimSpace mt) <;> exact ⟨rfl, rfl⟩
  · intro mt ps h hnone
    rw [parseSegment_q]
    unfold segmentQ
    rw [cutOn_append ';' mt ps h]
    show (splitOnSep ';' ps).foldl qParamStep 1 = 1
    rw [foldl_qParamStep_lastValid]
    have hnil : (splitOnSep ';' ps).filterMap validQ = [] := by
      rw [List.filterMap_eq_nil_iff]
      exact hnone
    rw [hnil]
    rfl

/-- C10 witness: instantiated on `application/json;charset=utf-8`. -/
theorem parseSegment_params_ignored_witness :
    (parseSegment (chars "application/json" ++ ';' :: chars "charset=utf-8")).typ
        = (parseSegment (trimSpace (chars "application/json"))).typ
    ∧ (parseSegment (chars "application/json" ++ ';' :: chars "charset=utf-8")).q = 1 :=
  ⟨(parseSegment_params_ignored.1 (chars "application/json") (chars "charset=utf-8")
      (by decide)).1,
    parseSegment_params_ignored.2.1 (chars "application/json") (chars "charset=utf-8")
      (by decide) (by decide)⟩

theorem varyTokens_append (a b : List Str) :
    varyTokens (a ++ b) = varyTokens a ++ varyTokens b := by
  simp [varyTokens]

/-- C9: responses whose format depends on Accept advertise both `Accept` and
`Origin` in Vary.  For problem payloads, `ensureVary` merges with any existing
values — recognising tokens inside a single comma-separated value — keeps every
existing value, and adds only the tokens not already listed.  For negotiated
success payloads the wired middleware chain yields exactly
`Vary: Accept, Origin` with no duplicates, and running the problem-path
bookkeeping on that state adds nothing. -/
theorem vary_bookkeeping :
    (∀ vs : List Str, problemVary vs
        = vs ++ (([chars "Origin", chars "Accept"]).filter
            (fun t => decide (t ∉ varyTokens vs))))
    ∧ (∀ (vs : List Str) (v : Str), v ∈ vs → v ∈ problemVary vs)
    ∧ (∀ vs : List Str, chars "Origin" ∈ varyTokens (problemVary vs)
        ∧ chars "Accept" ∈ varyTokens (problemVary vs))
    ∧ problemVary [chars "Accept, Origin"] = [chars "Accept, Origin"]
    ∧ successVary = [chars "Accept", chars "Origin"]
    ∧ problemVary successVary = successVary := by
  have hne : chars "Accept" ≠ chars "Origin" := by decide
  have hmain : ∀ vs : List Str, problemVary vs
      = vs ++ (([chars "Origin", chars "Accept"]).filter
          (fun t => decide (t ∉ varyTokens vs))) := by
    intro vs
    unfold problemVary ensureVary
    by_cases hO : chars "Origin" ∈ varyTokens vs <;>
      by_cases hA : chars "Accept" ∈ varyTokens vs <;>
        simp [hO, hA, hne]
  have hto : varyTokens [chars "Origin"] = [chars "Origin"] := by decide
  have hta : varyTokens [chars "Accept"] = [chars "Accept"] := by decide
  have htoa : varyTokens [chars "Origin", chars "Accept"]
      = [chars "Origin", chars "Accept"] := by decide
  refine ⟨hmain, ?_, ?_, by decide, by decide, by decide⟩
  · intro vs v hv
    rw [hmain vs]
    exact List.mem_append_left _ hv
  · intro vs
    rw [hmain vs]
    by_cases hO : chars "Origin" ∈ varyTokens vs <;>
      by_cases hA : chars "Accept" ∈ varyTokens vs <;>
        simp [varyTokens_append, hO, hA, hto, hta, htoa]

/-- C9 witness: existing Vary values survive the problem-path bookkeeping. -/
theorem vary_bookkeeping_witness :
    chars "X-Custom" ∈ problemVary [chars "X-Custom"] :=
  vary_bookkeeping.2.1 [chars "X-Custom"] (chars "X-Custom") (by simp)

theorem b64val_b64chr : ∀ n : Fin 64, b64val (b64chr n) = some n := by
  decide

/-- Decoding inverts encoding on every byte sequence. -/
theorem b64dec_b64enc (bs : Bytes) : b64dec (b64enc bs) = some bs := by
  induction bs using b64enc.induct with
  | case1 => rfl
  | case2 a =>
    have ha := a.isLt
    simp only [b64enc, b64dec, b64val_b64chr]
    simp only [Option.some.injEq, List.cons.injEq, and_true, Fin.ext_iff]
    omega
  | case3 a b =>
    have ha := a.isLt
    have hb := b.isLt
    simp only [b64enc, b64dec, b64val_b64chr]
    simp only [Option.some.injEq, List.cons.injEq, and_true, Fin.ext_iff]
    omega
  | case4 a b c rest ih =>
    have ha := a.isLt
    have hb := b.isLt
    have hc := c.isLt
    simp only [b64enc, b64dec, b64val_b64chr, ih]
    simp only [Option.some.injEq, List.cons.injEq, Fin.ext_iff]
    refine ⟨by omega, by omega, by omega, trivial⟩

theorem b64enc_ne_nil {bs : Bytes} (h : bs ≠ []) : b64enc bs ≠ [] := by
  match bs with
  | [] => exact absurd rfl h
  | [a] => simp [b64enc]
  | [a, b] => simp [b64enc]
  | a :: b :: c :: rest => simp [b64enc]

theorem mem_of_cutOn_none {α : Type} [DecidableEq α] {sep : α} {l : List α}
    (h : cutOn sep l = none) : sep ∉ l := by
  induction l with
  | nil => simp
  | cons c t ih =>
    simp only [cutOn] at h
    split_ifs at h with hc
    intro hm
    rcases List.mem_cons.mp hm with rfl | hm
    · exact hc rfl
    · exact ih (Option.map_eq_none'.mp h) hm

/-- C2 counterexample: a `Cursor` whose `Type` itself contains the colon
delimiter does not round-trip — the decoder splits at the first colon, so
`{Type: "a:b", Value: "c"}` decodes back as `{Type: "a", Value: "b:c"}`. -/
theorem cursor_roundtrip_counterexample :
    DecodeCursor (Cursor.Encode ⟨byteStr "a:b", byteStr "c"⟩)
      = .ok ⟨byteStr "a", byteStr "b:c"⟩
    ∧ (⟨byteStr "a", byteStr "b:c"⟩ : Cursor) ≠ ⟨byteStr "a:b", byteStr "c"⟩ := by
  constructor
  · decide
  · decide

/-- Shared round-trip fact: decoding an encoded cursor with a colon-free
`Type` recovers it exactly. -/
theorem decode_encode_of_colon_free (c : Cursor) (h : colonByte ∉ c.Ty) :
    DecodeCursor (Cursor.Encode c) = .ok c := by
  unfold Cursor.Encode DecodeCursor
  have hne : b64enc (c.Ty ++ colonByte :: c.Value) ≠ [] := b64enc_ne_nil (by simp)
  simp only [if_neg hne, b64dec_b64enc, cutOn_append colonByte c.Ty c.Value h]

/-- C2 amended: for every `Cursor` whose `Type` is free of the colon
delimiter — `Value` arbitrary: empty, containing any number of colons,
arbitrary (including multi-byte UTF-8) bytes, any length — decoding the
encoded token returns exactly the cursor, with no error. -/
theorem cursor_roundtrip (c : Cursor) (h : colonByte ∉ c.Ty) :
    DecodeCursor (Cursor.Encode c) = .ok c :=
  decode_encode_of_colon_free c h

/-- C2 witness: the round-trip law at `{Type: "item", Value: "42"}`
(the repository test's cursor). -/
theorem cursor_roundtrip_witness :
    DecodeCursor (Cursor.Encode ⟨byteStr "item", byteStr "42"⟩)
      = .ok ⟨byteStr "item", byteStr "42"⟩ :=
  cursor_roundtrip ⟨byteStr "item", byteStr "42"⟩ (by decide)

/-- C6: `DecodeCursor`'s complete error behaviour — the empty token yields the
zero cursor with no error; a token that fails base64url decoding errors with
`ErrInvalidCursor`; a token that decodes to bytes without a colon delimiter
errors with `ErrInvalidCursor`; and these are the only error cases (every
error is `ErrInvalidCursor`, on a non-empty token that either fails to decode
or decodes without a delimiter).  The repository test tokens `"bm9jb2xvbg"`
(decodes to `"nocolon"`) and `"!!!not-base64!!!"` both error. -/
theorem decodeCursor_errors :
    DecodeCursor [] = .ok ⟨[], []⟩
    ∧ (∀ t : Bytes, b64dec t = none → DecodeCursor t = .error .invalidCursor)
    ∧ (∀ t bs : Bytes, t ≠ [] → b64dec t = some bs → colonByte ∉ bs →
        DecodeCursor t = .error .invalidCursor)
    ∧ (∀ (t : Bytes) (e : CursorError), DecodeCursor t = .error e →
        e = .invalidCursor ∧ t ≠ []
          ∧ (b64dec t = none ∨ ∃ bs, b64dec t = some bs ∧ colonByte ∉ bs))
    ∧ DecodeCursor (byteStr "bm9jb2xvbg") = .error .invalidCursor
    ∧ DecodeCursor (byteStr "!!!not-base64!!!") = .error .invalidCursor := by
  refine ⟨rfl, ?_, ?_, ?_, by decide, by decide⟩
  · intro t h
    have ht : t ≠ [] := by
      rintro rfl
      simp [b64dec] at h
    unfold DecodeCursor
    simp only [if_neg ht, h]
  · intro t bs ht h hc
    unfold DecodeCursor
    simp only [if_neg ht, h, cutOn_eq_none hc]
  · intro t e h
    cases e
    by_cases ht : t = []
    · subst ht
      exact absurd h (by simp [DecodeCursor])
    · refine ⟨rfl, ht, ?_⟩
      cases hb : b64dec t with
      | none => exact Or.inl rfl
      | some bs =>
        cases hcut : cutOn colonByte bs with
        | none => exact Or.inr ⟨bs, rfl, mem_of_cutOn_none hcut⟩
        | some pr =>
          exfalso
          have hok : DecodeCursor t = .ok ⟨pr.1, pr.2⟩ := by
            unfold DecodeCursor
            simp only [if_neg ht, hb, hcut]
          rw [hok] at h
          exact Except.noConfusion h

/-- C6 witness: the invalid-encoding error path at a concrete token whose
fifth byte is outside the base64url alphabet. -/
theorem decodeCursor_errors_witness :
    DecodeCursor (byteStr "AAAA!") = .error .invalidCursor :=
  decodeCursor_errors.2.1 (byteStr "AAAA!") (by decide)

/-! ## C4: the previous-page cursor -/

/-- C4 counterexample: on the third page of ten items with limit 3 the start
index is 6, and `PrevCursor` decodes to `{item, "c"}` — the id of `items[2]` —
not to the id of the item at `start − 1 = 5` (`"f"`), contradicting the
claim's general rule `idOf(item at start index − 1)`. -/
theorem paginate_prevCursor_counterexample :
    startIndex c4Items (fun b => b) (decodeD c4Second.NextCursor) = 6
    ∧ DecodeCursor c4Third.PrevCursor = .ok ⟨byteStr "item", byteStr "c"⟩
    ∧ c4Items.getD 5 [] = byteStr "f"
    ∧ (Cursor.mk (byteStr "item") (byteStr "c")) ≠ Cursor.mk (byteStr "item") (byteStr "f") := by
  refine ⟨by decide, by decide, by decide, by decide⟩

/-- C4 amended: `PrevCursor` is the empty string exactly when the start index
is 0; otherwise it decodes, without error, to `{cursorType, v}` where `v` is
empty when `start ≤ limit` (the predecessor page is the first page) and
otherwise the id of the item at index `start − limit − 1` — the item just
before the predecessor page — so that replaying it lands on the predecessor
page, as the package's tests require. -/
theorem paginate_prevCursor {α : Type} (items : List α) (cursor : Cursor) (limit : ℕ)
    (ct : Bytes) (idOf : α → Bytes) (bp : Bytes) (q : Values) (hct : colonByte ∉ ct) :
    (startIndex items idOf cursor = 0 →
      (Paginate items cursor limit ct idOf bp q).PrevCursor = [])
    ∧ (startIndex items idOf cursor ≠ 0 →
      DecodeCursor (Paginate items cursor limit ct idOf bp q).PrevCursor
        = .ok ⟨ct, if startIndex items idOf cursor ≤ limit then []
            else ((items.drop (startIndex items idOf cursor - limit - 1)).head?).elim [] idOf⟩) := by
  constructor
  · intro h0
    show prevCursorOf items (startIndex items idOf cursor) limit ct idOf = []
    unfold prevCursorOf
    rw [if_pos h0]
  · intro hne
    show DecodeCursor (prevCursorOf items (startIndex items idOf cursor) limit ct idOf) = _
    unfold prevCursorOf
    rw [if_neg hne]
    exact decode_encode_of_colon_free
      ⟨ct, prevValOf items (startIndex items idOf cursor) limit idOf⟩ hct

/-- C4 witness: on the second page (start index 3, limit 3) the previous
cursor decodes to an empty value, pointing at page one. -/
theorem paginate_prevCursor_witness :
    DecodeCursor (Paginate c4Items ⟨byteStr "item", byteStr "c"⟩ 3 (byteStr "item")
        (fun b => b) (byteStr "/items") []).PrevCursor
      = .ok ⟨byteStr "item", []⟩ := by
  have h := (paginate_prevCursor c4Items ⟨byteStr "item", byteStr "c"⟩ 3 (byteStr "item")
    (fun b => b) (byteStr "/items") [] (by decide)).2 (by decide)
  exact h.trans (by decide)

/-! ## C5: unknown cursor values restart at the first page; the handler 400s -/

/-- C5: a cursor whose non-empty value matches no item's id makes `Paginate`
behave exactly as the zero cursor (start index 0, first page, no error); and
the items handler — not `Paginate` — rejects such a cursor with a 400 client
error by checking membership in the filtered collection before paginating. -/
theorem paginate_unknown_cursor_restart :
    (∀ (α : Type) (items : List α) (idOf : α → Bytes) (cursor : Cursor) (limit : ℕ)
      (ct bp : Bytes) (q : Values), cursor.Value ≠ [] →
      (∀ it ∈ items, idOf it ≠ cursor.Value) →
      Paginate items cursor limit ct idOf bp q
        = Paginate items ⟨[], []⟩ limit ct idOf bp q)
    ∧ (∀ (token : Bytes) (limit : ℕ) (category : Bytes) (allItems : List Item)
      (cursor : Cursor), DecodeCursor token = .ok cursor →
      (cursor.Ty = [] ∨ cursor.Ty = itemCursorType) → cursor.Value ≠ [] →
      findItemIndex (filterItems allItems category) cursor.Value = none →
      listHandler token limit category allItems
        = .clientError (byteStr "cursor references unknown item")) := by
  constructor
  · intro α items idOf cursor limit ct bp q hval hnone
    have hfindnone : items.findIdx? (fun it => decide (idOf it = cursor.Value)) = none := by
      rw [List.findIdx?_eq_none_iff]
      intro it hit
      simpa using hnone it hit
    have hs : startIndex items idOf cursor = startIndex items idOf ⟨[], []⟩ := by
      show startIndex items idOf cursor = 0
      unfold startIndex
      rw [if_neg hval, hfindnone]
    unfold Paginate
    rw [hs]
  · intro token limit category allItems cursor hdec hty hval hfind
    unfold listHandler
    simp only [hdec]
    have hty' : ¬(cursor.Ty ≠ [] ∧ cursor.Ty ≠ itemCursorType) := by
      rcases hty with h | h <;> simp [h]
    rw [if_neg hty', if_pos ⟨hval, hfind⟩]

/-- C5 witness: a cursor value `"zz"` absent from the fixture — `Paginate`
returns the first page (equal to the zero-cursor call), while the handler
rejects with the membership 400. -/
theorem paginate_unknown_cursor_restart_witness :
    Paginate c5Items ⟨byteStr "item", byteStr "zz"⟩ 2 itemCursorType
        (fun it => it.id) (byteStr "/v1/items") []
      = Paginate c5Items ⟨[], []⟩ 2 itemCursorType
        (fun it => it.id) (byteStr "/v1/items") []
    ∧ listHandler (Cursor.Encode ⟨byteStr "item", byteStr "zz"⟩) 2 [] c5Items
      = .clientError (byteStr "cursor references unknown item") :=
  ⟨paginate_unknown_cursor_restart.1 Item c5Items (fun it => it.id)
      ⟨byteStr "item", byteStr "zz"⟩ 2 itemCursorType (byteStr "/v1/items") []
      (by decide) (by decide),
    paginate_unknown_cursor_restart.2 (Cursor.Encode ⟨byteStr "item", byteStr "zz"⟩) 2 []
      c5Items ⟨byteStr "item", byteStr "zz"⟩ (by decide) (Or.inr rfl) (by decide) (by decide)⟩

/-! ## C8: the link builder's properties -/

theorem hexDigit_unreserved : ∀ n : Fin 16, isUnreserved (hexDigit n) = true := by
  decide

/-- Every byte emitted by `queryEscape` is unreserved, `+`, or `%` (hex digits
are themselves unreserved) — so spaces and reserved bytes such as `&`, `=`
never appear raw. -/
theorem queryEscape_safe (bs : Bytes) :
    ((queryEscape bs).all (fun b => isUnreserved b || b.val == 43 || b.val == 37)) = true := by
  induction bs with
  | nil => rfl
  | cons b t ih =>
    show ((if isUnreserved b then b :: queryEscape t
      else if b.val = 32 then ⟨43, by norm_num⟩ :: queryEscape t
      else ⟨37, by norm_num⟩ ::
        hexDigit ⟨b.val / 16, by have := b.isLt; omega⟩ ::
        hexDigit ⟨b.val % 16, by omega⟩ :: queryEscape t).all
          (fun b => isUnreserved b || b.val == 43 || b.val == 37)) = true
    split_ifs with h1 h2
    · simp [List.all_cons, h1, ih]
    · simp [List.all_cons, h2, ih]
      decide
    · simp [List.all_cons, ih, hexDigit_unreserved]
      decide

theorem filter_ne_eq_nil (q : Values) (k : Bytes) :
    (q.filter (fun kv => decide (kv.1 ≠ k))).filter (fun kv => decide (kv.1 = k)) = [] := by
  induction q with
  | nil => rfl
  | cons kv t ih =>
    by_cases h : kv.1 = k
    · simp [List.filter_cons, h, ih]
    · simp [List.filter_cons, h, ih]

/-- C8: `BuildLinkHeader` sets the `cursor` parameter by overwriting — after
`setVal` the query holds exactly one `cursor` binding with the new token,
while every other key keeps its (possibly repeated) values untouched;
`queryEscape` emits only unreserved bytes, `+`, or percent escapes;
no cursors yield the empty header; and on the package's concrete test inputs
the built header preserves multi-valued keys, percent-encodes the space in
`hello world` as `+`, replaces a pre-existing `cursor` parameter, joins
`basePath` and query with `?` (also for an empty base path, giving
`<?cursor=…>`), and emits `rel="next"`/`rel="prev"` entries exactly for the
non-empty cursors, comma-joined. -/
theorem buildLinkHeader_props :
    (∀ (q : Values) (tok : Bytes),
      (setVal q cursorKey tok).filter (fun kv => decide (kv.1 ≠ cursorKey))
        = q.filter (fun kv => decide (kv.1 ≠ cursorKey))
      ∧ (setVal q cursorKey tok).filter (fun kv => decide (kv.1 = cursorKey))
        = [(cursorKey, [tok])])
    ∧ (∀ bs : Bytes,
      ((queryEscape bs).all (fun b => isUnreserved b || b.val == 43 || b.val == 37)) = true)
    ∧ (∀ (bp : Bytes) (q : Values), BuildLinkHeader bp q [] [] = [])
    ∧ BuildLinkHeader (byteStr "/items") [] (byteStr "next") []
        = byteStr "</items?cursor=next>; rel=\x22next\x22"
    ∧ BuildLinkHeader [] [] (byteStr "next") []
        = byteStr "<?cursor=next>; rel=\x22next\x22"
    ∧ BuildLinkHeader (byteStr "/items")
        [(byteStr "cursor", [byteStr "old-cursor"]), (byteStr "limit", [byteStr "10"])]
        (byteStr "new-cursor") []
        = byteStr "</items?cursor=new-cursor&limit=10>; rel=\x22next\x22"
    ∧ BuildLinkHeader (byteStr "/items") [(byteStr "tag", [byteStr "a", byteStr "b", byteStr "c"])]
        (byteStr "next") []
        = byteStr "</items?cursor=next&tag=a&tag=b&tag=c>; rel=\x22next\x22"
    ∧ BuildLinkHeader (byteStr "/items") [(byteStr "filter", [byteStr "hello world"])]
        (byteStr "n") []
        = byteStr "</items?cursor=n&filter=hello+world>; rel=\x22next\x22"
    ∧ BuildLinkHeader (byteStr "/items") [(byteStr "limit", [byteStr "10"])]
        (byteStr "n") (byteStr "p")
        = byteStr "</items?cursor=n&limit=10>; rel=\x22next\x22, </items?cursor=p&limit=10>; rel=\x22prev\x22" := by
  refine ⟨?_, queryEscape_safe, ?_, by decide, by decide, by decide, by decide, by decide,
    by decide⟩
  · intro q tok
    constructor
    · unfold setVal
      rw [List.filter_append]
      simp [List.filter_filter]
    · unfold setVal
      rw [List.filter_append, filter_ne_eq_nil]
      simp
  · intro bp q
    rfl

end EchoPlayground
